import Mathlib

/- Verification of the search-space partitioning, retry, resume and dataset
finalisation logic of the NPIScraper class (src/scraper.py).  The external
world (the browser session, the directory site, per-record field extraction)
is modelled as an environment of oracles; every piece of scraper logic is
translated directly from the source.  Python strings are modelled as lists of
characters, Python exceptions as the `Except` monad. -/

/- A Python string. -/
abbrev Str := List Char

/- An exception message. -/
abbrev Err := Str

/- NPIScraper.ALPHABET (line 34): the 26 refinement letters; Python iterates
the string character by character. -/
def ALPHABET : List Char := "ABCDEFGHIJKLMNOPQRSTUVWXYZ".toList

/- NPIScraper.STATES (lines 35-41): the fixed 50-entry region-code set. -/
def STATES : List Str :=
  (["AL", "AK", "AZ", "AR", "CA", "CO", "CT", "DE", "FL", "GA",
    "HI", "ID", "IL", "IN", "IA", "KS", "KY", "LA", "ME", "MD",
    "MA", "MI", "MN", "MS", "MO", "MT", "NE", "NV", "NH", "NJ",
    "NM", "NY", "NC", "ND", "OH", "OK", "OR", "PA", "RI", "SC",
    "SD", "TN", "TX", "UT", "VT", "VA", "WA", "WV", "WI", "WY"]).map String.toList

/- The query filter tuple handed to search_profiles / recursive_search:
(first_initial, last_initial, middle_initial, state); all default to the
empty string, meaning unconstrained. -/
structure QueryFilter where
  first : Str := []
  last : Str := []
  middle : Str := []
  state : Str := []
deriving DecidableEq, Repr

/- One extracted profile (extract_profile_data's dict, lines 384-410): the
primary identifier NPI and the Address column are the fields clean_data
inspects; the remaining descriptive columns are carried opaquely. -/
structure Record where
  url : Str
  npi : Str
  address : Str
  rest : List Str
deriving DecidableEq, Repr

/- The environment of external oracles.  `fetch f` is the outcome of the
(retried) page navigation and link parse performed by search_profiles for
filter f: the ordered list of hrefs found on the single results page, or the
terminal exception after all retry attempts.  `fallbackFetch f` is the same
for the direct probe in recursive_search's maximum-narrowing branch (lines
314-322, the ten-digit anchor links).  `extract u` is the outcome of the
(retried) extract_profile_data call for profile URL u. -/
structure Env where
  fetch : QueryFilter → Except Err (List Str)
  fallbackFetch : QueryFilter → Except Err (List Str)
  extract : Str → Except Err Record

/- Lines 244-246: relative hrefs are absolutised against https://npidb.org. -/
def toUrl (href : Str) : Str :=
  if href.take 4 = "http".toList then href else "https://npidb.org".toList ++ href

/- Lines 223-231: the seen_hrefs loop.  A link is kept when its href is
non-empty and not seen before (first occurrence wins). -/
def dedupHrefs (seen : List Str) : List Str → List Str
  | [] => []
  | h :: t => if h ≠ [] ∧ h ∉ seen then h :: dedupHrefs (h :: seen) t else dedupHrefs seen t

/- search_profiles (lines 161-259): fetch the results page for the filter,
deduplicate the discovered hrefs, absolutise them, and return None (modelled
as `none`) when more than 30 URLs were found — the over-limit marker that
triggers narrowing — otherwise the URL list itself. -/
def search_profiles (env : Env) (f : QueryFilter) : Except Err (Option (List Str)) :=
  match env.fetch f with
  | .error e => .error e
  | .ok hrefs =>
    let urls := (dedupHrefs [] hrefs).map toUrl
    if urls.length > 30 then .ok none else .ok (some urls)

/- The filters recursive_search recurses into when the probe reports
over-limit, in source order (lines 277-310): refine last initial (resetting
middle and state to ''), else middle initial (resetting state to ''), else
state, else extend to a second character whichever of first/last/middle is
still a single character.  The empty list corresponds to the terminal
maximum-narrowing branch (lines 311-330). -/
def childFilters (f : QueryFilter) : List QueryFilter :=
  if f.last = [] then ALPHABET.map fun l => { f with last := [l], middle := [], state := [] }
  else if f.middle = [] then ALPHABET.map fun m => { f with middle := [m], state := [] }
  else if f.state = [] then STATES.map fun s => { f with state := s }
  else if f.first.length = 1 then ALPHABET.map fun c => { f with first := f.first ++ [c] }
  else if f.last.length = 1 then ALPHABET.map fun c => { f with last := f.last ++ [c] }
  else if f.middle.length = 1 then ALPHABET.map fun c => { f with middle := f.middle ++ [c] }
  else []

/- The maximum-narrowing fallback (lines 312-331): one direct probe; any
exception is caught and logged, leaving the gathered list empty; on success
only the first 30 links are taken, each kept when its href is non-empty. -/
def fallbackResult (env : Env) (f : QueryFilter) : Except Err (List Str) :=
  match env.fallbackFetch f with
  | .error _ => .ok []
  | .ok hrefs => .ok (((hrefs.take 30).filter fun h => !h.isEmpty).map toUrl)

/- The all_urls.extend loop over child results (lines 281-310): results are
concatenated in order; a child's exception propagates immediately. -/
def collectResults : List (Except Err (List Str)) → Except Err (List Str)
  | [] => .ok []
  | .error e :: _ => .error e
  | .ok urls :: rest =>
    match collectResults rest with
    | .error e => .error e
    | .ok acc => .ok (urls ++ acc)

/- Number of narrowing levels still available below a filter; every child
filter has strictly smaller rank (proved below), and the rank never exceeds
6, which bounds the recursion depth of recursive_search by 7. -/
def narrowRank (f : QueryFilter) : Nat :=
  if f.last = [] then 6
  else if f.middle = [] then 5
  else if f.state = [] then 4
  else (if f.first.length = 1 then 1 else 0) + (if f.last.length = 1 then 1 else 0) +
    (if f.middle.length = 1 then 1 else 0)

/- recursive_search (lines 261-338), written with an explicit depth budget so
that it is structurally recursive; searchFuel is independent of the budget as
long as the budget exceeds narrowRank (proved below), and the budget 7 used
by recursive_search always suffices.  Within limit, the probed URLs are
returned as-is; over limit, the children's results are concatenated; at the
terminal branch the fallback probe runs. -/
def searchFuel (env : Env) : Nat → QueryFilter → Except Err (List Str)
  | 0, _ => .error []
  | fuel + 1, f =>
    match search_profiles env f with
    | .error e => .error e
    | .ok (some urls) => .ok urls
    | .ok none =>
      match childFilters f with
      | [] => fallbackResult env f
      | cs => collectResults (cs.map fun g => searchFuel env fuel g)

def recursive_search (env : Env) (f : QueryFilter) : Except Err (List Str) :=
  searchFuel env 7 f

/- list(set(all_urls)) at line 362.  Python's set iteration order is
unspecified; it is modelled as first-occurrence order, which has the same
members and the same duplicate-freedom. -/
def pySetList (seen : List Str) : List Str → List Str
  | [] => []
  | h :: t => if h ∈ seen then pySetList seen t else h :: pySetList (h :: seen) t

/- scrape_search_results (lines 340-362): with a specific starting first
initial the recursive search result is returned directly; otherwise the
results of all 26 first initials are concatenated and deduplicated. -/
def scrape_search_results (env : Env) (p : QueryFilter) : Except Err (List Str) :=
  if p.first ≠ [] then recursive_search env p
  else
    match collectResults (ALPHABET.map fun c => recursive_search env { p with first := [c] }) with
    | .error e => .error e
    | .ok allUrls => .ok (pySetList [] allUrls)

/- scrape_all's resume filter (line 649): the work list is the discovered
URLs minus those already present in the durable output's URL column. -/
def scrape_all_worklist (env : Env) (p : QueryFilter) (scraped : List Str) :
    Except Err (List Str) :=
  match scrape_search_results env p with
  | .error e => .error e
  | .ok allUrls => .ok (allUrls.filter fun u => !(scraped.contains u))

/- The per-record fetch loop (lines 662-691): each URL is extracted through
the retry runner; a success appends one row to the durable output, a terminal
failure is logged and the loop continues. -/
def fetchLoop (ex : Str → Except Err Record) : List Str → List Record
  | [] => []
  | u :: t =>
    match ex u with
    | .ok r => r :: fetchLoop ex t
    | .error _ => fetchLoop ex t

/- The rows scrape_all appends to the durable output in one run. -/
def scrape_all_newRows (env : Env) (p : QueryFilter) (scraped : List Str) :
    Except Err (List Record) :=
  match scrape_all_worklist env p scraped with
  | .error e => .error e
  | .ok work => .ok (fetchLoop env.extract work)

/- The error classification of _retry_operation (line 150): an exception is
session-loss when its message contains 'invalid session id' or
'disconnected'; the flag records that test's outcome. -/
structure OpErr where
  isSession : Bool
deriving DecidableEq, Repr

/- Observable side effects of one _retry_operation run: a browser
re-initialisation, or an exponential-backoff sleep of the given length. -/
inductive RetryEv
  | recover
  | backoff (t : Nat)
deriving DecidableEq, Repr

/- How one _retry_operation run ends: the wrapped operation's result, the
re-raised final exception, or falling out of the loop (only possible when
max_retries = 0, where Python returns None). -/
inductive RetryOutcome (α : Type)
  | success (a : α)
  | raised (e : OpErr)
  | exhausted
deriving DecidableEq, Repr

/- _retry_operation (lines 140-159).  The wrapped operation is a function of
the attempt index (attempt 0 first).  Per attempt: return the result on
success; on a session-loss error re-initialise the browser and continue when
attempts remain; on any error with attempts remaining sleep 2^attempt and
continue; on the final attempt re-raise.  The loop over range(max_retries) is
modelled by structural recursion over the list of attempt indices. -/
def retryLoop {α : Type} (op : Nat → Except OpErr α) (maxRetries : Nat) :
    List Nat → RetryOutcome α × List RetryEv
  | [] => (.exhausted, [])
  | attempt :: rest =>
    match op attempt with
    | .ok a => (.success a, [])
    | .error e =>
      if e.isSession = true ∧ attempt < maxRetries - 1 then
        let r := retryLoop op maxRetries rest
        (r.1, .recover :: r.2)
      else if attempt < maxRetries - 1 then
        let r := retryLoop op maxRetries rest
        (r.1, .backoff (2 ^ attempt) :: r.2)
      else (.raised e, [])

def retry_operation {α : Type} (op : Nat → Except OpErr α) (maxRetries : Nat) :
    RetryOutcome α × List RetryEv :=
  retryLoop op maxRetries (List.range maxRetries)

/- Word characters in the sense of a Python regex word boundary (ASCII). -/
def isWordChar (c : Char) : Bool := c.isAlphanum || c = '_'

/- Apply g to every maximal run of word characters of the string, leaving all
other characters in place; written with a fuel argument (the string length
always suffices, proved below) so that it is structurally recursive. -/
def mapRunsF (g : Str → Str) : Nat → Str → Str
  | _, [] => []
  | 0, s => s
  | fuel + 1, c :: t =>
    if isWordChar c then
      g (c :: t.takeWhile isWordChar) ++ mapRunsF g fuel (t.dropWhile isWordChar)
    else c :: mapRunsF g fuel t

def mapRuns (g : Str → Str) (s : Str) : Str := mapRunsF g s.length s

/- df['Address'].str.replace(r'\bW\b', repl, case=False, regex=True) (lines
718-726).  Since the patterns consist of word characters only, a match
bracketed by word boundaries is exactly a maximal word-character run equal to
the pattern up to ASCII case, and every such run is replaced. -/
def replaceWordCI (w repl : Str) (s : Str) : Str :=
  mapRuns (fun run => if run.map Char.toUpper = w then repl else run) s

/- The address standardisation of clean_data (lines 717-727), in source
order: ST, then AVE, then BLVD. -/
def standardizeAddress (a : Str) : Str :=
  replaceWordCI "BLVD".toList "Boulevard".toList
    (replaceWordCI "AVE".toList "Avenue".toList
      (replaceWordCI "ST".toList "Street".toList a))

/- The single-pass description of standardizeAddress used by the theorems:
each whole-word occurrence of an abbreviation is expanded, everything else is
untouched. -/
def expandAbbrev (run : Str) : Str :=
  if run.map Char.toUpper = "ST".toList then "Street".toList
  else if run.map Char.toUpper = "AVE".toList then "Avenue".toList
  else if run.map Char.toUpper = "BLVD".toList then "Boulevard".toList
  else run

/- df['NPI'].str.match(r'^\d{10}$') (line 731): exactly ten digits.  (The
Python anchor $ would also tolerate one trailing newline; NPI values are
whitespace-stripped at extraction, so no such value arises.) -/
def npiValid (s : Str) : Bool := s.length = 10 && s.all Char.isDigit

/- df.drop_duplicates(subset=['NPI']) (line 714): keep each record whose NPI
was not seen earlier (first occurrence wins), preserving order. -/
def dedupNPI (seen : List Str) : List Record → List Record
  | [] => []
  | r :: t => if r.npi ∈ seen then dedupNPI seen t else r :: dedupNPI (r.npi :: seen) t

/- clean_data (lines 699-733): an empty input yields an empty frame;
otherwise drop NPI duplicates, standardise the Address column, and keep only
rows whose NPI is exactly ten digits — in that order. -/
def clean_data (rs : List Record) : List Record :=
  if rs.isEmpty then []
  else
    ((dedupNPI [] rs).map fun r => { r with address := standardizeAddress r.address }).filter
      fun r => npiValid r.npi

/- Concrete test data: filters, results pages and operations used to
instantiate the theorems below. -/

/- The filter with first initial A and everything else unconstrained. -/
def filterA : QueryFilter := ⟨['A'], [], [], []⟩

/- A filter with all three name fields at two characters and a state set:
narrowing is exhausted there. -/
def filterDeep : QueryFilter := ⟨['A', 'B'], ['C', 'D'], ['E', 'F'], ['C', 'A']⟩

/- A filter at the state-refinement level (first, last, middle set). -/
def filterState : QueryFilter := ⟨['A'], ['B'], ['C'], []⟩

def filterStateAL : QueryFilter := ⟨['A'], ['B'], ['C'], ['A', 'L']⟩

/- A results page with 31 distinct non-empty hrefs: over the display cap. -/
def hrefs31 : List Str := (List.range 31).map fun i => ['/', Char.ofNat (65 + i)]

def urlX : Str := "https://npidb.org/x".toList

/- A site on which every probe comes back empty. -/
def envZero : Env where
  fetch := fun _ => .ok []
  fallbackFetch := fun _ => .ok []
  extract := fun _ => .error []

/- A site on which the root filter A is over the cap and two of its children
both expose the same profile href /x. -/
def envDup : Env where
  fetch := fun f =>
    if f = filterA then .ok hrefs31
    else if f = { filterA with last := ['A'] } then .ok [['/', 'x']]
    else if f = { filterA with last := ['B'] } then .ok [['/', 'x']]
    else .ok []
  fallbackFetch := fun _ => .ok []
  extract := fun _ => .error []

/- A site on which every filtered probe is over the cap and the direct
fallback probe finds two records. -/
def envDeep : Env where
  fetch := fun _ => .ok hrefs31
  fallbackFetch := fun _ => .ok [['/', 'a'], ['/', 'b']]
  extract := fun _ => .error []

/- A site on which every filtered probe is over the cap and the direct
fallback probe raises. -/
def envDeepFail : Env where
  fetch := fun _ => .ok hrefs31
  fallbackFetch := fun _ => .error ['e']
  extract := fun _ => .error []

/- An operation raising a session-loss error on its first two attempts and
succeeding on the third. -/
def opSessionTwice : Nat → Except OpErr Nat := fun i =>
  if i = 0 then .error ⟨true⟩ else if i = 1 then .error ⟨true⟩ else .ok 42

/- A record whose address starts with the whole word ST (not trailing). -/
def recST : Record := ⟨"u".toList, "1234567890".toList, "ST MAIN".toList, []⟩

/- A record whose address ends with the whole word ST. -/
def recMain : Record := ⟨"u".toList, "1234567890".toList, "123 MAIN ST".toList, []⟩

/- Auxiliary list facts. -/

theorem length_dropWhile_le' (p : Char → Bool) (l : Str) :
    (l.dropWhile p).length ≤ l.length := by
  induction l with
  | nil => simp
  | cons c t ih =>
    rw [List.dropWhile_cons]
    split
    · exact Nat.le_succ_of_le ih
    · exact Nat.le_refl _

theorem takeWhile_all (p : Char → Bool) (l : Str) : (l.takeWhile p).all p = true := by
  induction l with
  | nil => simp
  | cons c t ih =>
    rw [List.takeWhile_cons]
    split
    · simp [*]
    · simp

theorem takeWhile_append_all (p : Char → Bool) (l₁ l₂ : Str) (h : l₁.all p = true) :
    (l₁ ++ l₂).takeWhile p = l₁ ++ l₂.takeWhile p := by
  induction l₁ with
  | nil => simp
  | cons c t ih =>
    simp only [List.all_cons, Bool.and_eq_true] at h
    simp [List.takeWhile_cons, h.1, ih h.2]

theorem dropWhile_append_all (p : Char → Bool) (l₁ l₂ : Str) (h : l₁.all p = true) :
    (l₁ ++ l₂).dropWhile p = l₂.dropWhile p := by
  induction l₁ with
  | nil => simp
  | cons c t ih =>
    simp only [List.all_cons, Bool.and_eq_true] at h
    simp [List.dropWhile_cons, h.1, ih h.2]

theorem takeWhile_dropWhile_nil (p : Char → Bool) (l : Str) :
    ((l.dropWhile p).takeWhile p) = [] := by
  induction l with
  | nil => simp
  | cons c t ih =>
    rw [List.dropWhile_cons]
    split
    · exact ih
    · rw [List.takeWhile_cons]
      simp_all

theorem dropWhile_of_takeWhile_nil (p : Char → Bool) (l : Str)
    (h : l.takeWhile p = []) : l.dropWhile p = l := by
  cases l with
  | nil => rfl
  | cons c t =>
    rw [List.takeWhile_cons] at h
    rw [List.dropWhile_cons]
    split
    · simp_all
    · rfl

/- The narrowing rank bounds the recursion depth. -/

theorem narrowRank_le_six (f : QueryFilter) : narrowRank f ≤ 6 := by
  unfold narrowRank
  split_ifs <;> omega

theorem states_ne_nil : ∀ s ∈ STATES, s ≠ [] := by decide

theorem narrowRank_child_lt (f g : QueryFilter) (hg : g ∈ childFilters f) :
    narrowRank g < narrowRank f := by
  unfold childFilters at hg
  split_ifs at hg with h1 h2 h3 h4 h5 h6
  · obtain ⟨l, -, rfl⟩ := List.mem_map.1 hg
    simp [narrowRank, h1]
  · obtain ⟨m, -, rfl⟩ := List.mem_map.1 hg
    simp [narrowRank, h1, h2]
  · obtain ⟨s, hs, rfl⟩ := List.mem_map.1 hg
    have hsne := states_ne_nil s hs
    simp only [narrowRank, h1, h2, h3]
    simp [hsne, h1, h2]
    split_ifs <;> omega
  · obtain ⟨c, -, rfl⟩ := List.mem_map.1 hg
    simp only [narrowRank]
    simp [h1, h2, h3, h4, List.length_append]
  · obtain ⟨c, -, rfl⟩ := List.mem_map.1 hg
    simp only [narrowRank]
    simp [h1, h2, h3, h4, h5, List.length_append]
  · obtain ⟨c, -, rfl⟩ := List.mem_map.1 hg
    simp only [narrowRank]
    simp [h1, h2, h3, h4, h5, h6, List.length_append]
  · simp at hg

/- searchFuel does not depend on the depth budget once it exceeds the rank. -/

theorem searchFuel_congr (env : Env) :
    ∀ fuel fuel' f, narrowRank f < fuel → narrowRank f < fuel' →
      searchFuel env fuel f = searchFuel env fuel' f := by
  intro fuel
  induction fuel with
  | zero => intro fuel' f h _; omega
  | succ n ih =>
    intro fuel' f h h'
    cases fuel' with
    | zero => omega
    | succ m =>
      simp only [searchFuel]
      cases hsp : search_profiles env f with
      | error e => rfl
      | ok o =>
        cases o with
        | some urls => rfl
        | none =>
          cases hcf : childFilters f with
          | nil => rfl
          | cons g gs =>
            have hmap : ∀ x ∈ childFilters f, searchFuel env n x = searchFuel env m x := by
              intro x hx
              have hlt := narrowRank_child_lt f x hx
              exact ih m x (by omega) (by omega)
            rw [hcf] at hmap
            show collectResults ((g :: gs).map fun x => searchFuel env n x) =
              collectResults ((g :: gs).map fun x => searchFuel env m x)
            exact congrArg collectResults (List.map_congr_left hmap)

/- One-step unfolding of recursive_search with full recursion depth on the
children. -/
theorem recursive_search_unfold (env : Env) (f : QueryFilter) :
    recursive_search env f =
      match search_profiles env f with
      | .error e => .error e
      | .ok (some urls) => .ok urls
      | .ok none =>
        match childFilters f with
        | [] => fallbackResult env f
        | cs => collectResults (cs.map fun g => recursive_search env g) := by
  have hle := narrowRank_le_six f
  show searchFuel env (6 + 1) f = _
  simp only [searchFuel]
  cases hsp : search_profiles env f with
  | error e => rfl
  | ok o =>
    cases o with
    | some urls => rfl
    | none =>
      cases hcf : childFilters f with
      | nil => rfl
      | cons g gs =>
        have hmap : ∀ x ∈ childFilters f, searchFuel env 6 x = recursive_search env x := by
          intro x hx
          have hlt := narrowRank_child_lt f x hx
          exact searchFuel_congr env 6 7 x (by omega) (by omega)
        rw [hcf] at hmap
        show collectResults ((g :: gs).map fun x => searchFuel env 6 x) =
          collectResults ((g :: gs).map fun x => recursive_search env x)
        exact congrArg collectResults (List.map_congr_left hmap)

/- collectResults succeeds exactly on lists of successes, concatenating. -/

theorem collectResults_map_ok (ls : List (List Str)) :
    collectResults (ls.map Except.ok) = .ok ls.flatten := by
  induction ls with
  | nil => rfl
  | cons l t ih => simp [collectResults, ih]

theorem collectResults_ok_iff (l : List (Except Err (List Str))) (u : List Str) :
    collectResults l = .ok u ↔
      ∃ ls : List (List Str), l = ls.map Except.ok ∧ u = ls.flatten := by
  induction l generalizing u with
  | nil =>
    constructor
    · intro h
      refine ⟨[], rfl, ?_⟩
      simpa [collectResults] using h.symm
    · rintro ⟨ls, hl, rfl⟩
      cases ls with
      | nil => rfl
      | cons a as => simp at hl
  | cons x t ih =>
    cases x with
    | error e =>
      constructor
      · intro h
        simp [collectResults] at h
      · rintro ⟨ls, hl, -⟩
        cases ls with
        | nil => simp at hl
        | cons a as => simp at hl
    | ok urls =>
      constructor
      · intro h
        simp only [collectResults] at h
        cases hct : collectResults t with
        | error e => rw [hct] at h; simp at h
        | ok acc =>
          rw [hct] at h
          simp only [Except.ok.injEq] at h
          obtain ⟨ls, hls, hacc⟩ := (ih acc).1 hct
          exact ⟨urls :: ls, by simp [hls], by simp [← h, hacc]⟩
      · rintro ⟨ls, hl, rfl⟩
        cases ls with
        | nil => simp at hl
        | cons a as =>
          simp only [List.map_cons, List.cons.injEq, Except.ok.injEq] at hl
          obtain ⟨rfl, rfl⟩ := hl
          simp [collectResults, collectResults_map_ok]

theorem flatten_toFinset (ls : List (List Str)) :
    ls.flatten.toFinset = ls.foldr (fun l acc => l.toFinset ∪ acc) ∅ := by
  induction ls with
  | nil => simp
  | cons l t ih => simp [List.toFinset_append, ih]

/- pySetList returns a duplicate-free list avoiding the seen set, with the
same members as its input (outside the seen set). -/

theorem pySetList_spec (l : List Str) :
    ∀ seen, (pySetList seen l).Nodup ∧ ∀ x ∈ pySetList seen l, x ∉ seen := by
  induction l with
  | nil => intro seen; simp [pySetList]
  | cons h t ih =>
    intro seen
    by_cases hh : h ∈ seen
    · simpa [pySetList, hh] using ih seen
    · have iht := ih (h :: seen)
      refine ⟨?_, ?_⟩
      · rw [pySetList, if_neg hh]
        refine List.nodup_cons.2 ⟨fun hmem => ?_, iht.1⟩
        exact iht.2 h hmem (by simp)
      · intro x hx
        rw [pySetList, if_neg hh] at hx
        rcases List.mem_cons.1 hx with rfl | hx'
        · exact hh
        · intro hxseen
          exact iht.2 x hx' (by simp [hxseen])

theorem mem_pySetList (l : List Str) :
    ∀ seen x, x ∈ pySetList seen l ↔ x ∉ seen ∧ x ∈ l := by
  induction l with
  | nil => intro seen x; simp [pySetList]
  | cons h t ih =>
    intro seen x
    by_cases hh : h ∈ seen
    · rw [pySetList, if_pos hh, ih]
      constructor
      · rintro ⟨hx, hxt⟩; exact ⟨hx, List.mem_cons_of_mem _ hxt⟩
      · rintro ⟨hx, hxl⟩
        rcases List.mem_cons.1 hxl with rfl | hxt
        · exact absurd hh hx
        · exact ⟨hx, hxt⟩
    · rw [pySetList, if_neg hh]
      constructor
      · intro hx
        rcases List.mem_cons.1 hx with rfl | hx'
        · exact ⟨hh, List.mem_cons_self _ _⟩
        · obtain ⟨hns, hxt⟩ := (ih _ x).1 hx'
          exact ⟨fun hs => hns (by simp [hs]), List.mem_cons_of_mem _ hxt⟩
      · rintro ⟨hns, hxl⟩
        rcases List.mem_cons.1 hxl with rfl | hxt
        · exact List.mem_cons_self _ _
        · by_cases hxh : x = h
          · subst hxh; exact List.mem_cons_self _ _
          · exact List.mem_cons_of_mem _ ((ih _ x).2 ⟨by simp [hns, hxh], hxt⟩)

/- dedupNPI keeps exactly the first record carrying each NPI value. -/

theorem mem_dedupNPI (r : Record) :
    ∀ (l : List Record) (seen : List Str),
      r ∈ dedupNPI seen l ↔
        r.npi ∉ seen ∧ l.find? (fun y => y.npi == r.npi) = some r := by
  intro l
  induction l with
  | nil => intro seen; simp [dedupNPI]
  | cons x t ih =>
    intro seen
    by_cases hx : x.npi ∈ seen
    · rw [dedupNPI, if_pos hx, ih]
      by_cases hbe : x.npi = r.npi
      · constructor
        · rintro ⟨hns, -⟩; exact absurd (hbe ▸ hx) hns
        · rintro ⟨hns, hf⟩
          rw [List.find?_cons_of_pos _ (by simp [hbe])] at hf
          obtain rfl := Option.some.injEq .. ▸ hf
          exact absurd (hbe ▸ hx) hns
      · rw [List.find?_cons_of_neg _ (by simp [hbe])]
    · rw [dedupNPI, if_neg hx]
      by_cases hbe : x.npi = r.npi
      · rw [List.find?_cons_of_pos _ (by simp [hbe])]
        constructor
        · intro hmem
          rcases List.mem_cons.1 hmem with rfl | hmem'
          · exact ⟨hx, rfl⟩
          · obtain ⟨hns, -⟩ := (ih _).1 hmem'
            exact absurd (by simp [hbe]) hns
        · rintro ⟨hns, hf⟩
          obtain rfl : x = r := by simpa using hf
          exact List.mem_cons_self _ _
      · rw [List.find?_cons_of_neg _ (by simp [hbe])]
        constructor
        · intro hmem
          rcases List.mem_cons.1 hmem with rfl | hmem'
          · exact absurd rfl hbe
          · obtain ⟨hns, hf⟩ := (ih _).1 hmem'
            exact ⟨fun hs => hns (by simp [hs]), hf⟩
        · rintro ⟨hns, hf⟩
          refine List.mem_cons_of_mem _ ((ih _).2 ⟨?_, hf⟩)
          intro hmem
          rcases List.mem_cons.1 hmem with h | h
          · exact hbe h.symm
          · exact hns h

/- mapRuns: fuel irrelevance and step equations. -/

theorem mapRunsF_congr (g : Str → Str) :
    ∀ fuel fuel' (s : Str), s.length ≤ fuel → s.length ≤ fuel' →
      mapRunsF g fuel s = mapRunsF g fuel' s := by
  intro fuel
  induction fuel with
  | zero =>
    intro fuel' s h _
    rw [List.length_eq_zero.1 (Nat.le_zero.1 h)]
    cases fuel' <;> rfl
  | succ n ih =>
    intro fuel' s h h'
    cases s with
    | nil => cases fuel' <;> rfl
    | cons c t =>
      cases fuel' with
      | zero => simp at h'
      | succ m =>
        simp only [mapRunsF]
        by_cases hc : isWordChar c = true
        · rw [if_pos hc, if_pos hc]
          congr 1
          have hd := length_dropWhile_le' isWordChar t
          have hlen : t.length ≤ n := by simpa using h
          have hlen' : t.length ≤ m := by simpa using h'
          exact ih m _ (by omega) (by omega)
        · rw [if_neg hc, if_neg hc]
          congr 1
          have hlen : t.length ≤ n := by simpa using h
          have hlen' : t.length ≤ m := by simpa using h'
          exact ih m t hlen hlen'

theorem mapRuns_cons_not (g : Str → Str) (c : Char) (t : Str)
    (hc : isWordChar c = false) : mapRuns g (c :: t) = c :: mapRuns g t := by
  show mapRunsF g (t.length + 1) (c :: t) = c :: mapRunsF g t.length t
  simp [mapRunsF, hc]

theorem mapRuns_cons_word (g : Str → Str) (c : Char) (t : Str)
    (hc : isWordChar c = true) :
    mapRuns g (c :: t) =
      g (c :: t.takeWhile isWordChar) ++ mapRuns g (t.dropWhile isWordChar) := by
  show mapRunsF g (t.length + 1) (c :: t) = _
  simp only [mapRunsF, hc, if_true]
  congr 1
  exact mapRunsF_congr g t.length _ _ (length_dropWhile_le' _ _) (Nat.le_refl _)

theorem mapRuns_takeWhile_nil (g : Str → Str) (l : Str)
    (h : l.takeWhile isWordChar = []) :
    (mapRuns g l).takeWhile isWordChar = [] := by
  cases l with
  | nil => rfl
  | cons c t =>
    have hc : isWordChar c = false := by
      rw [List.takeWhile_cons] at h
      cases hcc : isWordChar c
      · rfl
      · rw [hcc] at h
        simp at h
    rw [mapRuns_cons_not g c t hc, List.takeWhile_cons, hc]
    simp

theorem mapRuns_run_append (g : Str → Str) (run tail : Str) (hne : run ≠ [])
    (hall : run.all isWordChar = true) (ht : tail.takeWhile isWordChar = []) :
    mapRuns g (run ++ tail) = g run ++ mapRuns g tail := by
  cases run with
  | nil => exact absurd rfl hne
  | cons c rc =>
    simp only [List.all_cons, Bool.and_eq_true] at hall
    rw [List.cons_append, mapRuns_cons_word g c (rc ++ tail) hall.1]
    have h1 : (rc ++ tail).takeWhile isWordChar = rc := by
      rw [takeWhile_append_all _ _ _ hall.2, ht, List.append_nil]
    have h2 : (rc ++ tail).dropWhile isWordChar = tail := by
      rw [dropWhile_append_all _ _ _ hall.2]
      exact dropWhile_of_takeWhile_nil _ _ ht
    rw [h1, h2]

/- Two run rewrites fuse into one when the first preserves non-empty word
runs. -/
theorem mapRuns_comp (f g : Str → Str)
    (hf : ∀ r, r ≠ [] → r.all isWordChar = true → f r ≠ [] ∧ (f r).all isWordChar = true) :
    ∀ (n : Nat) (s : Str), s.length ≤ n →
      mapRuns g (mapRuns f s) = mapRuns (fun r => g (f r)) s := by
  intro n
  induction n with
  | zero =>
    intro s h
    rw [List.length_eq_zero.1 (Nat.le_zero.1 h)]
    rfl
  | succ n ih =>
    intro s hs
    cases s with
    | nil => rfl
    | cons c t =>
      by_cases hc : isWordChar c = true
      · rw [mapRuns_cons_word f c t hc, mapRuns_cons_word (fun r => g (f r)) c t hc]
        have hrun_ne : c :: t.takeWhile isWordChar ≠ [] := by simp
        have hrun_all : (c :: t.takeWhile isWordChar).all isWordChar = true := by
          simp [hc, takeWhile_all]
        have hrest : (t.dropWhile isWordChar).takeWhile isWordChar = [] :=
          takeWhile_dropWhile_nil _ _
        obtain ⟨hfne, hfall⟩ := hf _ hrun_ne hrun_all
        rw [mapRuns_run_append g _ _ hfne hfall (mapRuns_takeWhile_nil f _ hrest)]
        congr 1
        have h1 : (t.dropWhile isWordChar).length ≤ n := by
          have := length_dropWhile_le' isWordChar t
          simp only [List.length_cons] at hs
          omega
        exact ih _ h1
      · have hc' : isWordChar c = false := by simpa using hc
        rw [mapRuns_cons_not f c t hc', mapRuns_cons_not g c (mapRuns f t) hc',
          mapRuns_cons_not (fun r => g (f r)) c t hc']
        congr 1
        exact ih t (by simpa using Nat.le_of_succ_le_succ (by simpa using hs))

/- The substitution performed by one replaceWordCI pass keeps word runs
non-empty and made of word characters. -/
theorem substWord_preserves (w repl : Str) (h1 : repl ≠ [])
    (h2 : repl.all isWordChar = true) :
    ∀ r : Str, r ≠ [] → r.all isWordChar = true →
      (if r.map Char.toUpper = w then repl else r) ≠ [] ∧
      (if r.map Char.toUpper = w then repl else r).all isWordChar = true := by
  intro r hne hall
  split_ifs
  · exact ⟨h1, h2⟩
  · exact ⟨hne, hall⟩

/- The three sequential regex passes of clean_data amount to one pass that
expands every whole-word abbreviation occurrence. -/
theorem standardizeAddress_runs (a : Str) :
    standardizeAddress a = mapRuns expandAbbrev a := by
  have hST := substWord_preserves "ST".toList "Street".toList (by decide) (by decide)
  have hAVE := substWord_preserves "AVE".toList "Avenue".toList (by decide) (by decide)
  have hcomp : ∀ r : Str, r ≠ [] → r.all isWordChar = true →
      (fun r => if
          (if r.map Char.toUpper = "ST".toList then "Street".toList else r).map Char.toUpper =
            "AVE".toList then
          "Avenue".toList
        else if r.map Char.toUpper = "ST".toList then "Street".toList else r) r ≠ [] ∧
      ((fun r => if
          (if r.map Char.toUpper = "ST".toList then "Street".toList else r).map Char.toUpper =
            "AVE".toList then
          "Avenue".toList
        else if r.map Char.toUpper = "ST".toList then "Street".toList else r) r).all
        isWordChar = true := by
    intro r hne hall
    obtain ⟨g1, g2⟩ := hST r hne hall
    simpa using hAVE _ g1 g2
  unfold standardizeAddress replaceWordCI
  rw [mapRuns_comp _ _ (fun r hne hall => hST r hne hall) a.length a (Nat.le_refl _)]
  rw [mapRuns_comp _ _ (fun r hne hall => hcomp r hne hall) a.length a (Nat.le_refl _)]
  congr 1
  funext r
  have eSA : ¬("Street".toList.map Char.toUpper = "AVE".toList) := by decide
  have eSB : ¬("Street".toList.map Char.toUpper = "BLVD".toList) := by decide
  have eAB : ¬("Avenue".toList.map Char.toUpper = "BLVD".toList) := by decide
  by_cases h1 : r.map Char.toUpper = "ST".toList
  · simp [expandAbbrev, h1, eSA, eSB]
  · by_cases h2 : r.map Char.toUpper = "AVE".toList
    · simp [expandAbbrev, h1, h2, eAB]
    · by_cases h3 : r.map Char.toUpper = "BLVD".toList
      · simp [expandAbbrev, h1, h2, h3]
      · have h1' : ¬List.map Char.toUpper r = ['S', 'T'] := h1
        have h2' : ¬List.map Char.toUpper r = ['A', 'V', 'E'] := h2
        have h3' : ¬List.map Char.toUpper r = ['B', 'L', 'V', 'D'] := h3
        simp [expandAbbrev, h1', h2', h3']

/- Branch forms of recursive_search. -/

theorem recursive_search_overlimit (env : Env) (f : QueryFilter)
    (hover : search_profiles env f = .ok none) (hne : childFilters f ≠ []) :
    recursive_search env f = collectResults ((childFilters f).map (recursive_search env)) := by
  rw [recursive_search_unfold env f, hover]
  cases hcf : childFilters f with
  | nil => exact absurd hcf hne
  | cons g gs => rfl

theorem recursive_search_terminal (env : Env) (f : QueryFilter)
    (hover : search_profiles env f = .ok none) (hcf : childFilters f = []) :
    recursive_search env f = fallbackResult env f := by
  rw [recursive_search_unfold env f, hover, hcf]

theorem recursive_search_within (env : Env) (f : QueryFilter) (urls : List Str)
    (hin : search_profiles env f = .ok (some urls)) :
    recursive_search env f = .ok urls := by
  rw [recursive_search_unfold env f, hin]


/-- C3: for every filter whose probe reports a result count within the display
cap of 30 (including zero), recursive_search returns exactly the identifier
set the probe discovered, and performs no further narrowing: the result is
already determined by the probe of that one filter, independent of what the
site would answer anywhere else. -/
theorem C3_within_cap_returns_probe_set (env : Env) (f : QueryFilter) (hrefs : List Str)
    (hf : env.fetch f = .ok hrefs)
    (hcap : ((dedupHrefs [] hrefs).map toUrl).length ≤ 30) :
    recursive_search env f = .ok ((dedupHrefs [] hrefs).map toUrl)
    ∧ ∀ env' : Env, env'.fetch f = env.fetch f →
        recursive_search env' f = .ok ((dedupHrefs [] hrefs).map toUrl) := by
  have hin : ∀ env' : Env, env'.fetch f = .ok hrefs →
      search_profiles env' f = .ok (some ((dedupHrefs [] hrefs).map toUrl)) := by
    intro env' hf'
    rw [search_profiles, hf']
    simp only []
    rw [if_neg (by omega)]
  refine ⟨recursive_search_within env f _ (hin env hf), fun env' hf' => ?_⟩
  exact recursive_search_within env' f _ (hin env' (hf'.trans hf))

/-- C3 witness: a site whose probe of filter A discovers nothing: the empty
set is a valid terminal outcome returned as-is. -/
theorem C3_witness : recursive_search envZero filterA = .ok [] :=
  (C3_within_cap_returns_probe_set envZero filterA [] rfl (by decide)).1

/-- C4 counterexample: the claim says an over-limit resolve equals the union
of its children's results with duplicates removed, but when two child filters
of A expose the same profile /x the code concatenates the child results and
returns the identifier twice — the result is not duplicate-free. -/
theorem C4_counterexample :
    recursive_search envDup filterA = .ok [urlX, urlX]
    ∧ ¬ ([urlX, urlX] : List Str).Nodup
    ∧ pySetList [] [urlX, urlX] = [urlX] := by
  refine ⟨rfl, ?_, rfl⟩
  simp

/-- C4 amended: for every over-limit filter with children, recursive_search
returns the concatenation (in precedence order, duplicates retained) of the
children's results, all of which must succeed; as a set — but not as a list —
the result equals the union of the children's identifier sets. -/
theorem C4_overlimit_union_of_children (env : Env) (f : QueryFilter)
    (hover : search_profiles env f = .ok none) (hne : childFilters f ≠ [])
    (u : List Str) (hu : recursive_search env f = .ok u) :
    ∃ ls : List (List Str),
      (childFilters f).map (recursive_search env) = ls.map Except.ok
      ∧ u = ls.flatten
      ∧ u.toFinset = ls.foldr (fun l acc => l.toFinset ∪ acc) ∅ := by
  rw [recursive_search_overlimit env f hover hne] at hu
  obtain ⟨ls, hmap, hflat⟩ := (collectResults_ok_iff _ u).1 hu
  exact ⟨ls, hmap, hflat, by rw [hflat, flatten_toFinset]⟩

/-- C4 witness: the over-limit filter A on the duplicated site, where the
children all succeed and the concatenation carries /x twice while the set
union carries it once. -/
theorem C4_witness :
    ∃ ls : List (List Str),
      (childFilters filterA).map (recursive_search envDup) = ls.map Except.ok
      ∧ [urlX, urlX] = ls.flatten
      ∧ ([urlX, urlX] : List Str).toFinset = ls.foldr (fun l acc => l.toFinset ∪ acc) ∅ :=
  C4_overlimit_union_of_children envDup filterA rfl (by decide) [urlX, urlX] rfl

/-- C10: in the maximum-narrowing branch (last, middle and state set, none of
first/last/middle of length one) an exception of the final direct probe is
swallowed: recursive_search returns the identifiers gathered so far in the
branch — the empty set — instead of failing, and the branch never raises. -/
theorem C10_fallback_swallows_probe_errors (env : Env) (f : QueryFilter)
    (hover : search_profiles env f = .ok none)
    (hl : f.last ≠ []) (hm : f.middle ≠ []) (hs : f.state ≠ [])
    (h1 : f.first.length ≠ 1) (h2 : f.last.length ≠ 1) (h3 : f.middle.length ≠ 1) :
    (∀ e, env.fallbackFetch f = .error e → recursive_search env f = .ok [])
    ∧ ∃ l, recursive_search env f = .ok l := by
  have hcf : childFilters f = [] := by
    unfold childFilters
    rw [if_neg hl, if_neg hm, if_neg hs, if_neg h1, if_neg h2, if_neg h3]
  have hterm := recursive_search_terminal env f hover hcf
  constructor
  · intro e he
    rw [hterm, fallbackResult, he]
  · rw [hterm, fallbackResult]
    cases env.fallbackFetch f with
    | error e => exact ⟨[], rfl⟩
    | ok hrefs => exact ⟨_, rfl⟩

/-- C10 witness: on a site where the exhausted filter is over the cap and the
direct fallback probe raises, recursive_search still returns successfully
with the empty identifier set. -/
theorem C10_witness : recursive_search envDeepFail filterDeep = .ok [] :=
  (C10_fallback_swallows_probe_errors envDeepFail filterDeep rfl (by decide) (by decide)
    (by decide) (by decide) (by decide) (by decide)).1 ['e'] rfl

/-- C6: with last, middle and state all set and the probe still over-limit,
the partitioner extends to two characters whichever of first, last, middle is
still a single character, in exactly that precedence order, recursing over
the alphabet; and when all three name fields already have two or more
characters it performs one single direct probe and keeps at most the first 30
discovered identifiers. -/
theorem C6_second_character_precedence (env : Env) (f : QueryFilter)
    (hover : search_profiles env f = .ok none)
    (hl : f.last ≠ []) (hm : f.middle ≠ []) (hs : f.state ≠ []) :
    (f.first.length = 1 →
      recursive_search env f =
        collectResults ((ALPHABET.map fun c => { f with first := f.first ++ [c] }).map
          (recursive_search env)))
    ∧ (f.first.length ≠ 1 → f.last.length = 1 →
      recursive_search env f =
        collectResults ((ALPHABET.map fun c => { f with last := f.last ++ [c] }).map
          (recursive_search env)))
    ∧ (f.first.length ≠ 1 → f.last.length ≠ 1 → f.middle.length = 1 →
      recursive_search env f =
        collectResults ((ALPHABET.map fun c => { f with middle := f.middle ++ [c] }).map
          (recursive_search env)))
    ∧ (2 ≤ f.first.length → 2 ≤ f.last.length → 2 ≤ f.middle.length →
      recursive_search env f = fallbackResult env f
      ∧ ∀ hrefs, env.fallbackFetch f = .ok hrefs →
          recursive_search env f = .ok (((hrefs.take 30).filter fun h => !h.isEmpty).map toUrl)
          ∧ (((hrefs.take 30).filter fun h => !h.isEmpty).map toUrl).length ≤ 30) := by
  refine ⟨fun hf1 => ?_, fun hf1 hl1 => ?_, fun hf1 hl1 hm1 => ?_, fun hf2 hl2 hm2 => ?_⟩
  · have hcf : childFilters f = ALPHABET.map fun c => { f with first := f.first ++ [c] } := by
      unfold childFilters
      rw [if_neg hl, if_neg hm, if_neg hs, if_pos hf1]
    rw [← hcf]
    exact recursive_search_overlimit env f hover (by rw [hcf]; simp [ALPHABET])
  · have hcf : childFilters f = ALPHABET.map fun c => { f with last := f.last ++ [c] } := by
      unfold childFilters
      rw [if_neg hl, if_neg hm, if_neg hs, if_neg hf1, if_pos hl1]
    rw [← hcf]
    exact recursive_search_overlimit env f hover (by rw [hcf]; simp [ALPHABET])
  · have hcf : childFilters f = ALPHABET.map fun c => { f with middle := f.middle ++ [c] } := by
      unfold childFilters
      rw [if_neg hl, if_neg hm, if_neg hs, if_neg hf1, if_neg hl1, if_pos hm1]
    rw [← hcf]
    exact recursive_search_overlimit env f hover (by rw [hcf]; simp [ALPHABET])
  · have hcf : childFilters f = [] := by
      unfold childFilters
      rw [if_neg hl, if_neg hm, if_neg hs, if_neg (by omega), if_neg (by omega),
        if_neg (by omega)]
    have hterm := recursive_search_terminal env f hover hcf
    refine ⟨hterm, fun hrefs he => ⟨?_, ?_⟩⟩
    · rw [hterm, fallbackResult, he]
    · calc (((hrefs.take 30).filter fun h => !h.isEmpty).map toUrl).length
          = ((hrefs.take 30).filter fun h => !h.isEmpty).length := List.length_map ..
        _ ≤ (hrefs.take 30).length := List.length_filter_le ..
        _ ≤ 30 := by simp [List.length_take]

/-- C6 witness: the exhausted filter AB/CD/EF/CA on a site where every
filtered probe is over the cap: the one direct fallback probe answers with
two links and recursive_search returns exactly those, within the cap. -/
theorem C6_witness :
    recursive_search envDeep filterDeep = fallbackResult envDeep filterDeep :=
  ((C6_second_character_precedence envDeep filterDeep rfl (by decide) (by decide)
    (by decide)).2.2.2 (by decide) (by decide) (by decide)).1

/-- C1 counterexample: with the root filter fixing firstInitial = A,
scrape_search_results returns the partitioner's list without removing
duplicates, and with nothing scraped yet the per-record work list of
scrape_all contains the same identifier twice — it would be fetched twice in
one run, contradicting the claim that the orchestrator always unions the
discovered identifiers into one duplicate-free set. -/
theorem C1_counterexample :
    scrape_search_results envDup filterA = .ok [urlX, urlX]
    ∧ scrape_all_worklist envDup filterA [] = .ok [urlX, urlX]
    ∧ ¬ ([urlX, urlX] : List Str).Nodup := by
  refine ⟨rfl, rfl, ?_⟩
  simp

/-- C1 amended: the duplicate-elimination step exists only in the branch
where the root filter leaves firstInitial unconstrained; there the discovered
list, and hence the work list derived from it for any already-scraped set, is
duplicate-free. -/
theorem C1_dedup_when_first_unconstrained (env : Env) (p : QueryFilter)
    (hp : p.first = []) (l : List Str)
    (h : scrape_search_results env p = .ok l) :
    l.Nodup ∧ ∀ scraped w, scrape_all_worklist env p scraped = .ok w → w.Nodup := by
  have hl : l.Nodup := by
    rw [scrape_search_results, if_neg (by simp [hp])] at h
    cases hc : collectResults (ALPHABET.map fun c => recursive_search env { p with first := [c] }) with
    | error e => rw [hc] at h; simp at h
    | ok allUrls =>
      rw [hc] at h
      simp only [Except.ok.injEq] at h
      rw [← h]
      exact (pySetList_spec allUrls []).1
  refine ⟨hl, fun scraped w hw => ?_⟩
  rw [scrape_all_worklist, h] at hw
  simp only [Except.ok.injEq] at hw
  rw [← hw]
  exact hl.filter _

/-- C1 witness: with an unconstrained root filter on the empty site, the
discovered list is empty, hence duplicate-free, and so is every work list. -/
theorem C1_witness :
    ([] : List Str).Nodup
    ∧ ∀ scraped w, scrape_all_worklist envZero ⟨[], [], [], []⟩ scraped = .ok w → w.Nodup :=
  C1_dedup_when_first_unconstrained envZero ⟨[], [], [], []⟩ rfl [] rfl

/-- C7: when every identifier discovered by the second run is already present
in the durable output's URL column, the resume subtraction empties the work
list before any fetch and zero new rows are appended. -/
theorem C7_resume_appends_nothing (env : Env) (p : QueryFilter)
    (scraped allUrls : List Str)
    (hd : scrape_search_results env p = .ok allUrls)
    (hall : ∀ u ∈ allUrls, u ∈ scraped) :
    scrape_all_worklist env p scraped = .ok [] ∧ scrape_all_newRows env p scraped = .ok [] := by
  have hw : scrape_all_worklist env p scraped = .ok [] := by
    rw [scrape_all_worklist, hd]
    show Except.ok (allUrls.filter fun u => !scraped.contains u) = Except.ok []
    congr 1
    rw [List.filter_eq_nil_iff]
    intro u hu
    simp [hall u hu]
  exact ⟨hw, by rw [scrape_all_newRows, hw]; rfl⟩

/-- C7 witness: a second run on the empty site against output already
covering everything discovered (nothing) appends zero rows. -/
theorem C7_witness :
    scrape_all_worklist envZero filterA [] = .ok []
    ∧ scrape_all_newRows envZero filterA [] = .ok [] :=
  C7_resume_appends_nothing envZero filterA [] [] rfl (by simp)

/-- C2 counterexample: refining the last initial of a filter that already
carries a middle initial C and state CA produces children whose middle and
state are reset to empty — a non-empty field of the parent is cleared within
the branch, contradicting the claimed invariant. -/
theorem C2_counterexample :
    (QueryFilter.mk ['A'] [] ['C'] ['C', 'A']).middle ≠ []
    ∧ (QueryFilter.mk ['A'] [] ['C'] ['C', 'A']).state ≠ []
    ∧ QueryFilter.mk ['A'] ['A'] [] [] ∈ childFilters (QueryFilter.mk ['A'] [] ['C'] ['C', 'A'])
    ∧ (QueryFilter.mk ['A'] ['A'] [] []).middle = []
    ∧ (QueryFilter.mk ['A'] ['A'] [] []).state = [] := by
  refine ⟨by decide, by decide, ?_, rfl, rfl⟩
  decide

/-- C2 amended: child filters preserve (and only ever lengthen) the fields at
or before the refined precedence level — firstInitial always, lastInitial
once it is non-empty, middleInitial once last and middle are non-empty, and
the state once all of last, middle and state are non-empty — but refining the
last initial resets middle and state, and refining the middle initial resets
the state. -/
theorem C2_fields_monotone_up_to_level (f g : QueryFilter) (hg : g ∈ childFilters f) :
    (∃ t, g.first = f.first ++ t)
    ∧ (f.last ≠ [] → ∃ t, g.last = f.last ++ t)
    ∧ (f.last ≠ [] → f.middle ≠ [] → ∃ t, g.middle = f.middle ++ t)
    ∧ (f.last ≠ [] → f.middle ≠ [] → f.state ≠ [] → g.state = f.state) := by
  unfold childFilters at hg
  split_ifs at hg with h1 h2 h3 h4 h5 h6
  · obtain ⟨l, -, rfl⟩ := List.mem_map.1 hg
    exact ⟨⟨[], by simp⟩, fun hl => absurd h1 hl, fun hl _ => absurd h1 hl,
      fun hl _ _ => absurd h1 hl⟩
  · obtain ⟨m, -, rfl⟩ := List.mem_map.1 hg
    exact ⟨⟨[], by simp⟩, fun _ => ⟨[], by simp⟩, fun _ hm => absurd h2 hm,
      fun _ hm _ => absurd h2 hm⟩
  · obtain ⟨st, -, rfl⟩ := List.mem_map.1 hg
    exact ⟨⟨[], by simp⟩, fun _ => ⟨[], by simp⟩, fun _ _ => ⟨[], by simp⟩,
      fun _ _ hs => absurd h3 hs⟩
  · obtain ⟨c, -, rfl⟩ := List.mem_map.1 hg
    exact ⟨⟨[c], rfl⟩, fun _ => ⟨[], by simp⟩, fun _ _ => ⟨[], by simp⟩, fun _ _ _ => rfl⟩
  · obtain ⟨c, -, rfl⟩ := List.mem_map.1 hg
    exact ⟨⟨[], by simp⟩, fun _ => ⟨[c], rfl⟩, fun _ _ => ⟨[], by simp⟩, fun _ _ _ => rfl⟩
  · obtain ⟨c, -, rfl⟩ := List.mem_map.1 hg
    exact ⟨⟨[], by simp⟩, fun _ => ⟨[], by simp⟩, fun _ _ => ⟨[c], rfl⟩, fun _ _ _ => rfl⟩
  · simp at hg

/-- C2 witness: a state-refinement child of the filter A/B/C carries the
parent's first, last and middle values unchanged. -/
theorem C2_witness :
    (∃ t, filterStateAL.first = filterState.first ++ t)
    ∧ (filterState.last ≠ [] → ∃ t, filterStateAL.last = filterState.last ++ t)
    ∧ (filterState.last ≠ [] → filterState.middle ≠ [] →
        ∃ t, filterStateAL.middle = filterState.middle ++ t)
    ∧ (filterState.last ≠ [] → filterState.middle ≠ [] → filterState.state ≠ [] →
        filterStateAL.state = filterState.state) :=
  C2_fields_monotone_up_to_level filterState filterStateAL (by decide)

/-- C5: the retry runner retries a transient failure after a backoff of
2^attemptIndex when attempts remain, performs browser recovery (and no
backoff) on a session-loss failure when attempts remain, and re-raises on the
final attempt; in particular with three attempts and an operation losing the
session twice then succeeding, recovery runs exactly twice and the
operation's result is returned. -/
theorem C5_retry_runner (op : Nat → Except OpErr Nat) (v : Nat) (e0 e1 : OpErr)
    (h0 : op 0 = .error e0) (hs0 : e0.isSession = true)
    (h1 : op 1 = .error e1) (hs1 : e1.isSession = true)
    (h2 : op 2 = .ok v) :
    retry_operation op 3 = (.success v, [.recover, .recover])
    ∧ (∀ (op2 : Nat → Except OpErr Nat) (m a : Nat) (e : OpErr) (rest : List Nat),
        op2 a = .error e → e.isSession = false → a < m - 1 →
          retryLoop op2 m (a :: rest) =
            ((retryLoop op2 m rest).1, .backoff (2 ^ a) :: (retryLoop op2 m rest).2))
    ∧ (∀ (op3 : Nat → Except OpErr Nat) (m : Nat) (e : OpErr),
        0 < m → (∀ i, op3 i = .error e) → (retry_operation op3 m).1 = .raised e) := by
  refine ⟨?_, ?_, ?_⟩
  · show retryLoop op 3 [0, 1, 2] = (.success v, [.recover, .recover])
    simp [retryLoop, h0, h1, h2, hs0, hs1]
  · intro op2 m a e rest hop hs hlt
    simp only [retryLoop, hop]
    rw [if_neg (by simp [hs]), if_pos hlt]
  · intro op3 m e hm hop
    have key : ∀ l : List Nat, (∃ a ∈ l, ¬(a < m - 1)) → (retryLoop op3 m l).1 = .raised e := by
      intro l
      induction l with
      | nil => rintro ⟨a, ha, -⟩; exact absurd ha (List.not_mem_nil a)
      | cons a rest ih =>
        rintro ⟨b, hb, hbig⟩
        simp only [retryLoop, hop]
        by_cases ha : a < m - 1
        · have hbr : b ∈ rest := by
            rcases List.mem_cons.1 hb with rfl | h
            · exact absurd ha hbig
            · exact h
          split_ifs <;> exact ih ⟨b, hbr, hbig⟩
        · rw [if_neg (fun hc => ha hc.2), if_neg ha]
    apply key
    exact ⟨m - 1, List.mem_range.2 (by omega), by omega⟩

/-- C5 witness: an operation losing its session on attempts zero and one and
returning 42 on attempt two: the runner recovers twice and returns 42. -/
theorem C5_witness : retry_operation opSessionTwice 3 = (.success 42, [.recover, .recover]) :=
  (C5_retry_runner opSessionTwice 42 ⟨true⟩ ⟨true⟩ rfl rfl rfl rfl rfl).1

/-- C8: clean_data drops duplicate NPI rows with the first occurrence winning
and only then applies the ten-digit validation filter: a record survives
exactly when it is the first record of the input carrying its NPI (whether or
not later duplicates are valid) and its NPI passes validation.  Since the
validation predicate depends only on the NPI value, two records sharing an
NPI are always equally valid, so an invalid duplicate can never mask a valid
record. -/
theorem C8_dedup_before_validation (rs : List Record) (r : Record) :
    r ∈ clean_data rs ↔
      npiValid r.npi = true ∧
        ∃ r0 : Record, rs.find? (fun y => y.npi == r0.npi) = some r0 ∧
          r = { r0 with address := standardizeAddress r0.address } := by
  unfold clean_data
  by_cases hrs : rs.isEmpty
  · rw [if_pos hrs]
    obtain rfl : rs = [] := List.isEmpty_iff.1 hrs
    simp
  · rw [if_neg hrs, List.mem_filter]
    constructor
    · rintro ⟨hmem, hvalid⟩
      obtain ⟨r0, hr0, rfl⟩ := List.mem_map.1 hmem
      obtain ⟨-, hfind⟩ := (mem_dedupNPI r0 rs []).1 hr0
      exact ⟨hvalid, r0, hfind, rfl⟩
    · rintro ⟨hvalid, r0, hfind, rfl⟩
      refine ⟨List.mem_map.2 ⟨r0, ?_, rfl⟩, hvalid⟩
      exact (mem_dedupNPI r0 rs []).2 ⟨List.not_mem_nil _, hfind⟩

/-- C9 counterexample: the claim says an abbreviation occurrence that is not
a trailing whole word is left unchanged, but clean_data rewrites the leading
whole word ST of "ST MAIN" to Street as well. -/
theorem C9_counterexample :
    clean_data [recST] = [{ recST with address := "Street MAIN".toList }]
    ∧ "Street MAIN".toList ≠ "ST MAIN".toList := by
  exact ⟨rfl, by decide⟩

/-- C9 amended: clean_data expands ST, AVE and BLVD in the address field
case-insensitively at every whole-word occurrence — trailing or not — and
leaves occurrences embedded in longer words unchanged: the three sequential
regex passes equal one pass expanding each maximal word run; in particular
"123 MAIN ST" becomes "123 MAIN Street". -/
theorem C9_wholeword_expansion_everywhere :
    (∀ a : Str, standardizeAddress a = mapRuns expandAbbrev a)
    ∧ standardizeAddress "123 MAIN ST".toList = "123 MAIN Street".toList
    ∧ standardizeAddress "123 main st".toList = "123 main Street".toList
    ∧ standardizeAddress "1 FIRST AVE APT 2".toList = "1 FIRST Avenue APT 2".toList
    ∧ standardizeAddress "9 SUNSET BLVD".toList = "9 SUNSET Boulevard".toList
    ∧ standardizeAddress "10 STREET STMAIN MAST ST3".toList
        = "10 STREET STMAIN MAST ST3".toList
    ∧ clean_data [recMain] = [{ recMain with address := "123 MAIN Street".toList }] :=
  ⟨standardizeAddress_runs, rfl, rfl, rfl, rfl, rfl, rfl⟩
